import Mathlib

/-!
Shallow embedding of the `lerp_table` crate (`src/lib.rs`): a piecewise-linear
interpolation table over `NotNan<f64>` coordinates.

Modelling conventions:
* A non-NaN `f64` is modelled as a rational number `ℚ`; a raw `f64` that may
  be NaN is modelled by `F64` (`nan` or a rational value).
* Rust's stable `sort_by` keyed on the x component is modelled by
  `List.mergeSort` with the same comparison key (both are stable sorts over a
  total preorder).
* `slice::binary_search_by` is modelled after its loop in Rust's `core`
  library, with an explicit fuel argument bounding the iteration count; the
  loop interval shrinks strictly each iteration, so `data.length` fuel always
  reproduces the loop's exact behaviour (proved below).
* An out-of-bounds slice index `data[i]` (a Rust panic) is modelled by the
  `EvalResult.panicked` outcome.
-/

namespace LerpTable

/-- `Coord(NotNan<f64>, NotNan<f64>)`; both components are non-NaN, so each is
a plain rational in the model. -/
structure Coord where
  x : ℚ
  y : ℚ
deriving DecidableEq, Repr

/-- A raw `f64`: either NaN or a (non-NaN) numeric value. -/
inductive F64 where
  | nan : F64
  | val : ℚ → F64
deriving DecidableEq, Repr

/-- `ordered_float::FloatIsNan`. -/
inductive FloatIsNan where
  | mk : FloatIsNan
deriving DecidableEq, Repr

/-- `NotNan::new`: accepts exactly the non-NaN values. -/
def NotNan.new : F64 → Except FloatIsNan ℚ
  | .nan => .error .mk
  | .val q => .ok q

/-- `impl TryFrom<(X, Y)> for Coord`. -/
def Coord.tryFrom (value : F64 × F64) : Except FloatIsNan Coord := do
  let x ← NotNan.new value.1
  let y ← NotNan.new value.2
  return ⟨x, y⟩

/-- `Coord::zero()`. -/
def Coord.zero : Coord := ⟨0, 0⟩

/-- `PiecewiseErr`. -/
inductive PiecewiseErr where
  | InputEmpty
  | InputUndefined
  | NotInDomain
  | InputNaN
deriving DecidableEq, Repr

/-- The sort comparison used in `try_from`: `|a, b| a.0.cmp(&b.0)`
(key: the x component only). -/
def coordLe (a b : Coord) : Bool := decide (a.x ≤ b.x)

/-- The `windows(2)` scan in `try_from`: `true` iff no adjacent pair has equal
x and different y (the scan errors with `InputUndefined` on such a pair). -/
def windowsOK : List Coord → Bool
  | c1 :: c2 :: rest => !(c2.x == c1.x && c2.y != c1.y) && windowsOK (c2 :: rest)
  | _ => true

/-- `Piecewise(Vec<Coord>)`. -/
structure Piecewise where
  points : List Coord
deriving DecidableEq, Repr

/-- `impl TryFrom<Vec<Coord>> for Piecewise` (also the body of `serde`
deserialization, via `#[serde(try_from = "Vec<Coord>")]`). -/
def Piecewise.tryFrom (points : List Coord) : Except PiecewiseErr Piecewise :=
  match points with
  | [] => .error .InputEmpty
  | [p] => .ok ⟨[p]⟩
  | p1 :: p2 :: rest =>
    let sorted := (p1 :: p2 :: rest).mergeSort coordLe
    if windowsOK sorted then .ok ⟨sorted⟩ else .error .InputUndefined

/-- One iteration of `slice::binary_search_by`'s loop (Rust `core`), searching
for `v` among the x components.  State is the interval `[left, right)`;
`fuel` bounds the number of iterations. -/
def bsearchGo (data : List Coord) (v : ℚ) : Nat → Nat → Nat → Except Nat Nat
  | 0, left, _ => .error left
  | fuel + 1, left, right =>
    if left < right then
      let mid := left + (right - left) / 2
      let c := (data.getD mid Coord.zero).x
      if c < v then bsearchGo data v fuel (mid + 1) right
      else if v < c then bsearchGo data v fuel left mid
      else .ok mid
    else .error left

/-- `data.binary_search_by(|point| point.0.cmp(&value))`. -/
def binarySearch (data : List Coord) (v : ℚ) : Except Nat Nat :=
  bsearchGo data v data.length 0 data.length

/-- Outcome of `y_at_x`: `Ok`, `Err`, or a Rust panic (out-of-bounds slice
index). -/
inductive EvalResult where
  | ok : ℚ → EvalResult
  | err : PiecewiseErr → EvalResult
  | panicked : EvalResult
deriving DecidableEq, Repr

/-- `Piecewise::y_at_x`. -/
def Piecewise.y_at_x (p : Piecewise) (value : F64) : EvalResult :=
  match NotNan.new value with
  | .error _ => .err .InputNaN
  | .ok v =>
    let data := p.points
    match binarySearch data v with
    | .error i =>
      if i = 0 ∨ data.length < i - 1 then
        .err .NotInDomain
      else
        match data[i - 1]?, data[i]? with
        | some c1, some c2 =>
          .ok ((c1.y - c2.y) / (c1.x - c2.x) * (v - c1.x) + c1.y)
        | _, _ => .panicked
    | .ok i =>
      match data[i]? with
      | some c => .ok c.y
      | none => .panicked

/-- `impl From<Piecewise> for Vec<(NotNan<f64>, NotNan<f64>)>` (the `serde`
serialization image, via `#[serde(into = ...)]`). -/
def Piecewise.serialize (p : Piecewise) : List (ℚ × ℚ) :=
  p.points.map fun c => (c.x, c.y)

/-- Deserialization front end: each numeric pair becomes a `Coord` (`serde`
decodes a `Vec<Coord>` and then runs `Piecewise::try_from` on it). -/
def coordsOfPairs (l : List (ℚ × ℚ)) : List Coord :=
  l.map fun q => ⟨q.1, q.2⟩

/-- The points are in non-decreasing x order. -/
def sortedByX (l : List Coord) : Prop :=
  l.Pairwise fun a b => a.x ≤ b.x

/-- The spec's function invariant for an adjacent pair of stored points:
`x1 < x2`, or `x1 == x2` and `y1 == y2`. -/
def funcInv (a b : Coord) : Prop :=
  a.x < b.x ∨ (a.x = b.x ∧ a.y = b.y)

/-- Smallest stored x (head of the sorted point sequence). -/
def Piecewise.min_x (p : Piecewise) : ℚ := (p.points.headD Coord.zero).x

/-- Largest stored x (last of the sorted point sequence). -/
def Piecewise.max_x (p : Piecewise) : ℚ := (p.points.getLastD Coord.zero).x

/-! ### Basic facts about construction -/

theorem coordLe_trans : ∀ (a b c : Coord), coordLe a b → coordLe b c → coordLe a c := by
  intro a b c hab hbc
  simp only [coordLe, decide_eq_true_eq] at *
  exact le_trans hab hbc

theorem coordLe_total : ∀ (a b : Coord), coordLe a b || coordLe b a := by
  intro a b
  simp only [coordLe, Bool.or_eq_true, decide_eq_true_eq]
  exact le_total a.x b.x

theorem tryFrom_ok_points {pts : List Coord} {p : Piecewise}
    (h : Piecewise.tryFrom pts = .ok p) : p.points = pts.mergeSort coordLe := by
  match pts with
  | [] => simp [Piecewise.tryFrom] at h
  | [a] =>
    simp only [Piecewise.tryFrom, Except.ok.injEq] at h
    rw [← h, List.mergeSort_singleton]
  | p1 :: p2 :: rest =>
    simp only [Piecewise.tryFrom] at h
    split at h
    · cases h
      rfl
    · cases h

theorem tryFrom_ok_windowsOK {pts : List Coord} {p : Piecewise}
    (h : Piecewise.tryFrom pts = .ok p) : windowsOK p.points = true := by
  match pts with
  | [] => simp [Piecewise.tryFrom] at h
  | [a] =>
    simp only [Piecewise.tryFrom, Except.ok.injEq] at h
    rw [← h]
    rfl
  | p1 :: p2 :: rest =>
    simp only [Piecewise.tryFrom] at h
    split at h
    · cases h
      assumption
    · cases h

theorem tryFrom_ok_ne_nil {pts : List Coord} {p : Piecewise}
    (h : Piecewise.tryFrom pts = .ok p) : p.points ≠ [] := by
  have hp := tryFrom_ok_points h
  intro hnil
  match pts with
  | [] => simp [Piecewise.tryFrom] at h
  | q :: qs =>
    have : ((q :: qs).mergeSort coordLe).length = qs.length + 1 := by
      rw [List.length_mergeSort]
      rfl
    rw [← hp, hnil] at this
    simp at this

theorem sortedByX_mergeSort (l : List Coord) : sortedByX (l.mergeSort coordLe) :=
  (List.sorted_mergeSort coordLe_trans coordLe_total l).imp
    (by intro a b hab; simpa [coordLe] using hab)

theorem sortedByX_ok {pts : List Coord} {p : Piecewise}
    (h : Piecewise.tryFrom pts = .ok p) : sortedByX p.points := by
  rw [tryFrom_ok_points h]
  exact sortedByX_mergeSort pts

theorem windowsOK_iff : ∀ (l : List Coord),
    windowsOK l = true ↔ l.Chain' fun a b => ¬(b.x = a.x ∧ b.y ≠ a.y)
  | [] => by simp [windowsOK]
  | [a] => by simp [windowsOK]
  | c1 :: c2 :: rest => by
    rw [windowsOK, List.chain'_cons, Bool.and_eq_true, windowsOK_iff (c2 :: rest)]
    simp
    tauto

theorem instIsTransFuncInv : ∀ (a b c : Coord), funcInv a b → funcInv b c → funcInv a c := by
  rintro a b c (hab | ⟨hab, haby⟩) (hbc | ⟨hbc, hbcy⟩)
  · exact Or.inl (lt_trans hab hbc)
  · exact Or.inl (hbc ▸ hab)
  · exact Or.inl (hab ▸ hbc)
  · exact Or.inr ⟨hab.trans hbc, haby.trans hbcy⟩

theorem chain'_and {α : Type} {R S : α → α → Prop} {l : List α}
    (h1 : l.Chain' R) (h2 : l.Chain' S) : l.Chain' fun a b => R a b ∧ S a b := by
  rw [List.chain'_iff_get] at *
  exact fun i h => ⟨h1 i h, h2 i h⟩

theorem chain'_funcInv_of {l : List Coord} (hs : sortedByX l)
    (hw : windowsOK l = true) : l.Chain' funcInv := by
  have hs' : l.Chain' fun a b : Coord => a.x ≤ b.x := hs.chain'
  have hw' := (windowsOK_iff l).mp hw
  refine (chain'_and hs' hw').imp ?_
  rintro a b ⟨hle, hnb⟩
  rcases lt_or_eq_of_le hle with hlt | heq
  · exact Or.inl hlt
  · refine Or.inr ⟨heq, ?_⟩
    by_contra hy
    exact hnb ⟨heq.symm, fun hyy => hy hyy.symm⟩

theorem funcInv_chain_ok {pts : List Coord} {p : Piecewise}
    (h : Piecewise.tryFrom pts = .ok p) : p.points.Chain' funcInv :=
  chain'_funcInv_of (sortedByX_ok h) (tryFrom_ok_windowsOK h)

theorem pairwise_funcInv_of_chain {l : List Coord} (hc : l.Chain' funcInv) :
    l.Pairwise funcInv := by
  haveI : IsTrans Coord funcInv := ⟨instIsTransFuncInv⟩
  exact List.chain'_iff_pairwise.mp hc

theorem sameX_sameY {l : List Coord} (hc : l.Chain' funcInv)
    {a b : Coord} (ha : a ∈ l) (hb : b ∈ l) (hxy : a.x = b.x) : a.y = b.y := by
  have hp : l.Pairwise fun a b : Coord => a.x = b.x → a.y = b.y :=
    (pairwise_funcInv_of_chain hc).imp
      (fun h => h.elim (fun hlt hx => absurd hx (ne_of_lt hlt)) (fun h2 _ => h2.2))
  by_cases hab : a = b
  · rw [hab]
  · have hsymm : Symmetric fun a b : Coord => a.x = b.x → a.y = b.y := by
      intro x y h hx
      exact (h hx.symm).symm
    exact hp.forall hsymm ha hb hab hxy

/-! ### Index access helpers -/

theorem getD_eq_get (l : List Coord) (d : Coord) {n : Nat} (h : n < l.length) :
    l.getD n d = l.get ⟨n, h⟩ := by
  rw [List.getD_eq_getElem?_getD, List.getElem?_eq_getElem h, Option.getD_some,
    List.get_eq_getElem]

theorem sortedByX_get_le {l : List Coord} (hs : sortedByX l) {i j : Nat}
    (hij : i ≤ j) (hj : j < l.length) :
    (l.get ⟨i, Nat.lt_of_le_of_lt hij hj⟩).x ≤ (l.get ⟨j, hj⟩).x := by
  rcases Nat.eq_or_lt_of_le hij with h | h
  · cases h
    exact le_refl _
  · exact List.pairwise_iff_get.mp hs ⟨i, Nat.lt_of_le_of_lt hij hj⟩ ⟨j, hj⟩ h

/-! ### Binary search specification -/

theorem bsearchGo_err_spec (data : List Coord) (v : ℚ) (hs : sortedByX data) :
    ∀ (fuel left right j : Nat), right - left ≤ fuel → left ≤ right →
    right ≤ data.length →
    (∀ (k : Nat) (hk : k < data.length), k < left → (data.get ⟨k, hk⟩).x < v) →
    (∀ (k : Nat) (hk : k < data.length), right ≤ k → v < (data.get ⟨k, hk⟩).x) →
    bsearchGo data v fuel left right = .error j →
    j ≤ data.length ∧
    (∀ (k : Nat) (hk : k < data.length), k < j → (data.get ⟨k, hk⟩).x < v) ∧
    (∀ (k : Nat) (hk : k < data.length), j ≤ k → v < (data.get ⟨k, hk⟩).x) := by
  intro fuel
  induction fuel with
  | zero =>
    intro left right j hfuel hlr hrlen hleft hright heq
    simp only [bsearchGo] at heq
    injection heq with hj
    subst hj
    exact ⟨by omega, hleft, fun k hk hjk => hright k hk (by omega)⟩
  | succ fuel ih =>
    intro left right j hfuel hlr hrlen hleft hright heq
    simp only [bsearchGo] at heq
    by_cases h : left < right
    · rw [if_pos h] at heq
      set mid := left + (right - left) / 2 with hmiddef
      have hmidlen : mid < data.length := by omega
      rw [getD_eq_get data Coord.zero hmidlen] at heq
      by_cases hc1 : (data.get ⟨mid, hmidlen⟩).x < v
      · rw [if_pos hc1] at heq
        refine ih (mid + 1) right j (by omega) (by omega) hrlen ?_ hright heq
        intro k hk hklt
        rcases Nat.lt_or_ge k mid with hkm | hkm
        · exact lt_of_le_of_lt (sortedByX_get_le hs (le_of_lt hkm) hmidlen) hc1
        · have hkmid : k = mid := by omega
          subst hkmid
          exact hc1
      · rw [if_neg hc1] at heq
        by_cases hc2 : v < (data.get ⟨mid, hmidlen⟩).x
        · rw [if_pos hc2] at heq
          refine ih left mid j (by omega) (by omega) (by omega) hleft ?_ heq
          intro k hk hmk
          exact lt_of_lt_of_le hc2 (sortedByX_get_le hs hmk hk)
        · rw [if_neg hc2] at heq
          simp at heq
    · rw [if_neg h] at heq
      injection heq with hj
      subst hj
      exact ⟨by omega, hleft, fun k hk hjk => hright k hk (by omega)⟩

theorem bsearchGo_ok_spec (data : List Coord) (v : ℚ) :
    ∀ (fuel left right j : Nat), right ≤ data.length →
    bsearchGo data v fuel left right = .ok j →
    ∃ hj : j < data.length, (data.get ⟨j, hj⟩).x = v := by
  intro fuel
  induction fuel with
  | zero =>
    intro left right j hrlen heq
    simp only [bsearchGo] at heq
    exact Except.noConfusion heq
  | succ fuel ih =>
    intro left right j hrlen heq
    simp only [bsearchGo] at heq
    by_cases h : left < right
    · rw [if_pos h] at heq
      set mid := left + (right - left) / 2 with hmiddef
      have hmidlen : mid < data.length := by omega
      rw [getD_eq_get data Coord.zero hmidlen] at heq
      by_cases hc1 : (data.get ⟨mid, hmidlen⟩).x < v
      · rw [if_pos hc1] at heq
        exact ih (mid + 1) right j hrlen heq
      · rw [if_neg hc1] at heq
        by_cases hc2 : v < (data.get ⟨mid, hmidlen⟩).x
        · rw [if_pos hc2] at heq
          exact ih left mid j (by omega) heq
        · rw [if_neg hc2] at heq
          injection heq with hj
          subst hj
          exact ⟨hmidlen, le_antisymm (not_lt.mp hc2) (not_lt.mp hc1)⟩
    · rw [if_neg h] at heq
      simp at heq

theorem binarySearch_err_spec {data : List Coord} {v : ℚ} {j : Nat}
    (hs : sortedByX data) (h : binarySearch data v = .error j) :
    j ≤ data.length ∧
    (∀ (k : Nat) (hk : k < data.length), k < j → (data.get ⟨k, hk⟩).x < v) ∧
    (∀ (k : Nat) (hk : k < data.length), j ≤ k → v < (data.get ⟨k, hk⟩).x) :=
  bsearchGo_err_spec data v hs data.length 0 data.length j (by omega) (by omega)
    (le_refl _) (fun k _ hk0 => absurd hk0 (Nat.not_lt_zero k))
    (fun k hk hlen => absurd hk (not_lt.mpr hlen)) h

theorem binarySearch_ok_spec {data : List Coord} {v : ℚ} {j : Nat}
    (h : binarySearch data v = .ok j) :
    ∃ hj : j < data.length, (data.get ⟨j, hj⟩).x = v :=
  bsearchGo_ok_spec data v data.length 0 data.length j (le_refl _) h

theorem binarySearch_err_not_mem {data : List Coord} {v : ℚ} {j : Nat}
    (hs : sortedByX data) (h : binarySearch data v = .error j) :
    ∀ c ∈ data, c.x ≠ v := by
  intro c hc hcx
  obtain ⟨⟨k, hk⟩, hget⟩ := List.mem_iff_get.mp hc
  obtain ⟨hjlen, hlt, hgt⟩ := binarySearch_err_spec hs h
  rcases Nat.lt_or_ge k j with hkj | hkj
  · have hx := hlt k hk hkj
    rw [hget, hcx] at hx
    exact lt_irrefl v hx
  · have hx := hgt k hk hkj
    rw [hget, hcx] at hx
    exact lt_irrefl v hx

theorem binarySearch_err_of_bracket {data : List Coord} {v : ℚ} {i : Nat}
    (hs : sortedByX data) (hi0 : 1 ≤ i) (hilen : i < data.length)
    (h1 : (data.get ⟨i - 1, by omega⟩).x < v)
    (h2 : v < (data.get ⟨i, hilen⟩).x) :
    binarySearch data v = .error i := by
  cases hbs : binarySearch data v with
  | ok j =>
    obtain ⟨hj, hjx⟩ := binarySearch_ok_spec hbs
    rcases Nat.lt_or_ge j i with hji | hji
    · have hle := sortedByX_get_le hs (show j ≤ i - 1 by omega)
        (show i - 1 < data.length by omega)
      rw [hjx] at hle
      exact absurd h1 (not_lt.mpr hle)
    · have hle := sortedByX_get_le hs hji hj
      rw [hjx] at hle
      exact absurd h2 (not_lt.mpr hle)
  | error j =>
    obtain ⟨hjlen, hlt, hgt⟩ := binarySearch_err_spec hs hbs
    have hij : j = i := by
      rcases Nat.lt_trichotomy j i with hji | hji | hji
      · exfalso
        have hx := hgt (i - 1) (by omega) (by omega)
        exact absurd hx (lt_asymm h1)
      · exact hji
      · exfalso
        have hx := hlt i hilen hji
        exact absurd hx (lt_asymm h2)
    rw [hij]

/-! ### Further construction facts and evaluation unfolding -/

theorem windowsOK_false_ex : ∀ (l : List Coord), windowsOK l = false →
    ∃ a ∈ l, ∃ b ∈ l, b.x = a.x ∧ b.y ≠ a.y
  | [], h => by simp [windowsOK] at h
  | [a], h => by simp [windowsOK] at h
  | c1 :: c2 :: rest, h => by
    rw [windowsOK] at h
    cases hb : (c2.x == c1.x && c2.y != c1.y) with
    | true =>
      rw [Bool.and_eq_true, beq_iff_eq, bne_iff_ne] at hb
      exact ⟨c1, by simp, c2, by simp, hb.1, hb.2⟩
    | false =>
      rw [hb] at h
      simp only [Bool.not_false, Bool.true_and] at h
      obtain ⟨a, ha, b, hbm, hx, hy⟩ := windowsOK_false_ex (c2 :: rest) h
      exact ⟨a, List.mem_cons_of_mem c1 ha, b, List.mem_cons_of_mem c1 hbm, hx, hy⟩

theorem tryFrom_self {l : List Coord} (hne : l ≠ []) (hs : sortedByX l)
    (hw : windowsOK l = true) : Piecewise.tryFrom l = .ok ⟨l⟩ := by
  rcases l with _ | ⟨c1, _ | ⟨c2, rest⟩⟩
  · exact absurd rfl hne
  · rfl
  · simp only [Piecewise.tryFrom]
    have hsort : (c1 :: c2 :: rest).mergeSort coordLe = c1 :: c2 :: rest :=
      List.mergeSort_of_sorted
        (hs.imp (by intro a b hab; simpa [coordLe] using hab))
    rw [hsort, if_pos hw]

theorem y_at_x_eq_of_bsearch_ok {p : Piecewise} {v : ℚ} {i : Nat}
    (hb : binarySearch p.points v = .ok i) :
    p.y_at_x (.val v) =
      match p.points[i]? with
      | some c => .ok c.y
      | none => .panicked := by
  simp only [Piecewise.y_at_x, NotNan.new]
  rw [hb]

theorem y_at_x_eq_of_bsearch_err {p : Piecewise} {v : ℚ} {i : Nat}
    (hb : binarySearch p.points v = .error i) :
    p.y_at_x (.val v) =
      if i = 0 ∨ p.points.length < i - 1 then .err .NotInDomain
      else
        match p.points[i - 1]?, p.points[i]? with
        | some c1, some c2 =>
          .ok ((c1.y - c2.y) / (c1.x - c2.x) * (v - c1.x) + c1.y)
        | _, _ => .panicked := by
  simp only [Piecewise.y_at_x, NotNan.new]
  rw [hb]

theorem headD_x_eq_get : ∀ (l : List Coord) (h0 : 0 < l.length),
    (l.headD Coord.zero).x = (l.get ⟨0, h0⟩).x
  | _ :: _, _ => rfl

theorem min_x_eq_get {p : Piecewise} (h0 : 0 < p.points.length) :
    p.min_x = (p.points.get ⟨0, h0⟩).x :=
  headD_x_eq_get p.points h0

end LerpTable

deriving instance DecidableEq for Except

namespace LerpTable

/-! ### Concrete fixtures (the `SIDEARM` table from the crate's tests, and a
two-point ramp) -/

/-- The `SIDEARM` control points from the crate's test module. -/
def sidearmPts : List Coord := [⟨0, 18⟩, ⟨90, 36⟩, ⟨100, 42⟩]

/-- The `Piecewise` built from `sidearmPts`. -/
def sidearm : Piecewise := ⟨sidearmPts⟩

theorem sidearm_tryFrom : Piecewise.tryFrom sidearmPts = .ok sidearm := by
  simp only [sidearmPts, Piecewise.tryFrom]
  rw [List.mergeSort_of_sorted (by decide)]
  rfl

/-- A simple two-point table. -/
def rampPts : List Coord := [⟨0, 0⟩, ⟨2, 2⟩]

/-- The `Piecewise` built from `rampPts`. -/
def ramp : Piecewise := ⟨rampPts⟩

theorem ramp_tryFrom : Piecewise.tryFrom rampPts = .ok ramp := by
  simp only [rampPts, Piecewise.tryFrom]
  rw [List.mergeSort_of_sorted (by decide)]
  rfl

/-! ### Claim theorems -/

/-- C5: every successfully constructed `Piecewise` (construction and
deserialization both run `try_from`) has its points in non-decreasing x order,
and every adjacent stored pair satisfies `x1 < x2`, or `x1 = x2 ∧ y1 = y2`.
The value is immutable afterwards (the model is pure; no operation returns a
modified point list), so the invariant holds for the value's lifetime. -/
theorem constructed_sorted_funcInv (pts : List Coord) (p : Piecewise)
    (h : Piecewise.tryFrom pts = .ok p) :
    sortedByX p.points ∧ p.points.Chain' funcInv :=
  ⟨sortedByX_ok h, funcInv_chain_ok h⟩

theorem constructed_sorted_funcInv_witness :
    Piecewise.tryFrom sidearmPts = .ok sidearm ∧
    (sortedByX sidearm.points ∧ sidearm.points.Chain' funcInv) :=
  ⟨sidearm_tryFrom, constructed_sorted_funcInv sidearmPts sidearm sidearm_tryFrom⟩

/-- C3: for every control point `(x, y)` stored in a successfully constructed
`Piecewise`, `y_at_x x` returns `Ok y` with the stored `y` exactly — the
binary search hits the exact-match branch, with no slope computation. -/
theorem exact_recovery (pts : List Coord) (p : Piecewise)
    (h : Piecewise.tryFrom pts = .ok p) (c : Coord) (hc : c ∈ p.points) :
    p.y_at_x (.val c.x) = .ok c.y := by
  have hs := sortedByX_ok h
  cases hbs : binarySearch p.points c.x with
  | error j => exact absurd rfl (binarySearch_err_not_mem hs hbs c hc)
  | ok j =>
    obtain ⟨hj, hjx⟩ := binarySearch_ok_spec hbs
    rw [y_at_x_eq_of_bsearch_ok hbs, List.getElem?_eq_getElem hj]
    have hy : (p.points.get ⟨j, hj⟩).y = c.y :=
      sameX_sameY (funcInv_chain_ok h) (List.get_mem p.points j hj) hc hjx
    simp only [List.get_eq_getElem] at hy
    simp [hy]

theorem exact_recovery_witness :
    Piecewise.tryFrom sidearmPts = .ok sidearm ∧
    sidearm.y_at_x (.val 90) = .ok 36 :=
  ⟨sidearm_tryFrom,
    exact_recovery sidearmPts sidearm sidearm_tryFrom ⟨90, 36⟩ (by decide)⟩

/-- C4: for a non-matching query `v` lying strictly between the stored points
at indices `i - 1` and `i`, `y_at_x v` returns
`Ok(slope * (v - x1) + y1)` with `slope = (y1 - y2) / (x1 - x2)`, where
`(x1, y1)` is the point at `i - 1` and `(x2, y2)` the point at `i`.
(No stored point can then have x equal to `v`: sortedness puts every other
point's x outside the open bracket.) -/
theorem interpolation_formula (pts : List Coord) (p : Piecewise)
    (h : Piecewise.tryFrom pts = .ok p) (v : ℚ) (i : Nat) (c1 c2 : Coord)
    (hi0 : 1 ≤ i) (hc1 : p.points[i - 1]? = some c1)
    (hc2 : p.points[i]? = some c2) (h1 : c1.x < v) (h2 : v < c2.x) :
    p.y_at_x (.val v) = .ok ((c1.y - c2.y) / (c1.x - c2.x) * (v - c1.x) + c1.y) := by
  have hs := sortedByX_ok h
  obtain ⟨hilen, hc2e⟩ := List.getElem?_eq_some_iff.mp hc2
  obtain ⟨hi1len, hc1e⟩ := List.getElem?_eq_some_iff.mp hc1
  have hb : binarySearch p.points v = .error i := by
    apply binarySearch_err_of_bracket hs hi0 hilen
    · rw [List.get_eq_getElem, hc1e]
      exact h1
    · rw [List.get_eq_getElem, hc2e]
      exact h2
  rw [y_at_x_eq_of_bsearch_err hb, if_neg (by push_neg; exact ⟨by omega, by omega⟩)]
  rw [hc1, hc2]

theorem interpolation_formula_witness :
    Piecewise.tryFrom sidearmPts = .ok sidearm ∧
    sidearm.y_at_x (.val 33) = .ok ((18 - 36) / (0 - 90) * (33 - 0) + 18) :=
  ⟨sidearm_tryFrom,
    interpolation_formula sidearmPts sidearm sidearm_tryFrom 33 1 ⟨0, 18⟩ ⟨90, 36⟩
      (by decide) (by decide) (by decide) (by decide) (by decide)⟩

/-- C7: whenever the failed binary search leaves `y_at_x` with bracket
indices `i - 1` and `i` that are both in range (the state in which the slope
is computed), the bracketing points satisfy `x1 < query < x2` strictly, so
`x1 ≠ x2` and the slope's divisor `x1 - x2` is nonzero — also in the presence
of coincident duplicate points. -/
theorem slope_divisor_nonzero (pts : List Coord) (p : Piecewise)
    (h : Piecewise.tryFrom pts = .ok p) (v : ℚ) (i : Nat)
    (hb : binarySearch p.points v = .error i) (hi0 : i ≠ 0)
    (hilen : i < p.points.length) :
    (p.points.get ⟨i - 1, by omega⟩).x < v ∧ v < (p.points.get ⟨i, hilen⟩).x ∧
    (p.points.get ⟨i - 1, by omega⟩).x ≠ (p.points.get ⟨i, hilen⟩).x := by
  obtain ⟨hjlen, hlt, hgt⟩ := binarySearch_err_spec (sortedByX_ok h) hb
  have ha := hlt (i - 1) (by omega) (by omega)
  have hb2 := hgt i hilen (le_refl i)
  exact ⟨ha, hb2, ne_of_lt (lt_trans ha hb2)⟩

theorem slope_divisor_nonzero_witness :
    binarySearch ramp.points 1 = .error 1 ∧
    ((ramp.points.get ⟨0, by decide⟩).x < 1 ∧
      1 < (ramp.points.get ⟨1, by decide⟩).x ∧
      (ramp.points.get ⟨0, by decide⟩).x ≠ (ramp.points.get ⟨1, by decide⟩).x) :=
  ⟨by decide,
    slope_divisor_nonzero rampPts ramp ramp_tryFrom 1 1 (by decide) (by decide)
      (by decide)⟩

/-- C9: a failed binary search's insertion index `i` always satisfies
`i ≤ data.len()`, so `i - 1 > data.len()` is never true (the upper-bound
rejection branch of the guard is unreachable, and the truncated subtraction
`i - 1` is harmless); consequently the evaluation path yields `NotInDomain`
only when `i = 0`, i.e. only for queries below the smallest stored x. -/
theorem insertion_index_bounds (pts : List Coord) (p : Piecewise)
    (h : Piecewise.tryFrom pts = .ok p) (v : ℚ) :
    (∀ i : Nat, binarySearch p.points v = .error i →
      i ≤ p.points.length ∧ ¬(p.points.length < i - 1)) ∧
    (p.y_at_x (.val v) = .err .NotInDomain →
      binarySearch p.points v = .error 0 ∧ v < p.min_x) := by
  have hs := sortedByX_ok h
  have hne := tryFrom_ok_ne_nil h
  have h0 : 0 < p.points.length := List.length_pos.mpr hne
  constructor
  · intro i hb
    obtain ⟨hjlen, _, _⟩ := binarySearch_err_spec hs hb
    exact ⟨hjlen, by omega⟩
  · intro hy
    cases hbs : binarySearch p.points v with
    | ok j =>
      obtain ⟨hj, _⟩ := binarySearch_ok_spec hbs
      rw [y_at_x_eq_of_bsearch_ok hbs, List.getElem?_eq_getElem hj] at hy
      exact absurd hy (by simp)
    | error j =>
      obtain ⟨hjlen, hlt, hgt⟩ := binarySearch_err_spec hs hbs
      rw [y_at_x_eq_of_bsearch_err hbs] at hy
      by_cases hcond : j = 0 ∨ p.points.length < j - 1
      · have hj0 : j = 0 := by omega
        subst hj0
        refine ⟨rfl, ?_⟩
        rw [min_x_eq_get h0]
        exact hgt 0 h0 (Nat.le_refl 0)
      · rw [if_neg hcond] at hy
        push_neg at hcond
        rcases Nat.lt_or_ge j p.points.length with hjlt | hjge
        · rw [List.getElem?_eq_getElem (show j - 1 < p.points.length by omega),
            List.getElem?_eq_getElem hjlt] at hy
          exact absurd hy (by simp)
        · rw [List.getElem?_eq_getElem (show j - 1 < p.points.length by omega),
            List.getElem?_eq_none (by omega)] at hy
          exact absurd hy (by simp)

theorem insertion_index_bounds_witness :
    binarySearch sidearm.points (-5) = .error 0 ∧ (-5 : ℚ) < sidearm.min_x :=
  (insertion_index_bounds sidearmPts sidearm sidearm_tryFrom (-5)).2 (by decide)

/-- C1 (code bug): `y_at_x` does not report a query above the largest stored
x via an error.  The guard `x == 0 || x - 1 > data.len()` never fires for the
insertion index `len` (since `len - 1 > len` is false), so execution reaches
`data[index]` with `index = len` and panics.  At the crate's own `SIDEARM`
table, the query 150 panics instead of returning `NotInDomain`. -/
theorem query_above_max_panics :
    Piecewise.tryFrom sidearmPts = .ok sidearm ∧
    sidearm.y_at_x (.val 150) = .panicked :=
  ⟨sidearm_tryFrom, by decide⟩

/-- C2 (code bug): the domain-boundary contract fails above `max_x`: for the
two-point ramp (`max_x = 2`) the query 3 panics rather than failing
`NotInDomain`.  Below `min_x` the error is produced as claimed (last
conjunct). -/
theorem domain_boundary_above_max_panics :
    Piecewise.tryFrom rampPts = .ok ramp ∧
    ramp.max_x = 2 ∧
    ramp.y_at_x (.val 3) = .panicked ∧
    ramp.y_at_x (.val (-1)) = .err .NotInDomain :=
  ⟨ramp_tryFrom, by decide, by decide, by decide⟩

/-- C6: construction fails `InputEmpty` exactly on the empty input; fails
`InputUndefined` exactly when the non-empty input contains two points sharing
an x but differing in y (inputs whose equal-x points agree in y are
accepted); `Coord` construction fails with `FloatIsNan` exactly when a
component is NaN; and a NaN query fails with `InputNaN`. -/
theorem error_taxonomy :
    (∀ pts : List Coord, Piecewise.tryFrom pts = .error .InputEmpty ↔ pts = []) ∧
    (∀ pts : List Coord, Piecewise.tryFrom pts = .error .InputUndefined ↔
      pts ≠ [] ∧ ∃ a ∈ pts, ∃ b ∈ pts, a.x = b.x ∧ a.y ≠ b.y) ∧
    (∀ pts : List Coord, pts ≠ [] →
      (∀ a ∈ pts, ∀ b ∈ pts, a.x = b.x → a.y = b.y) →
      ∃ p : Piecewise, Piecewise.tryFrom pts = .ok p) ∧
    (∀ w : F64 × F64, (∃ e, Coord.tryFrom w = .error e) ↔
      (w.1 = .nan ∨ w.2 = .nan)) ∧
    (∀ p : Piecewise, p.y_at_x .nan = .err .InputNaN) := by
  refine ⟨?_, ?_, ?_, ?_, fun p => rfl⟩
  · intro pts
    constructor
    · intro h
      rcases pts with _ | ⟨c1, _ | ⟨c2, rest⟩⟩
      · rfl
      · simp [Piecewise.tryFrom] at h
      · simp only [Piecewise.tryFrom] at h
        split at h
        · exact Except.noConfusion h
        · injection h with he
          exact PiecewiseErr.noConfusion he
    · rintro rfl
      rfl
  · intro pts
    constructor
    · intro h
      rcases pts with _ | ⟨c1, _ | ⟨c2, rest⟩⟩
      · simp [Piecewise.tryFrom] at h
      · simp [Piecewise.tryFrom] at h
      · refine ⟨by simp, ?_⟩
        simp only [Piecewise.tryFrom] at h
        split at h
        · exact Except.noConfusion h
        · rename_i hw
          have hwf : windowsOK ((c1 :: c2 :: rest).mergeSort coordLe) = false :=
            Bool.not_eq_true _ ▸ eq_false_of_ne_true hw
          obtain ⟨a, ha, b, hbm, hx, hy⟩ := windowsOK_false_ex _ hwf
          exact ⟨a, List.mem_mergeSort.mp ha, b, List.mem_mergeSort.mp hbm,
            hx.symm, fun hyy => hy hyy.symm⟩
    · rintro ⟨hne, a, ha, b, hbm, hx, hy⟩
      rcases pts with _ | ⟨c1, _ | ⟨c2, rest⟩⟩
      · exact absurd rfl hne
      · simp only [List.mem_singleton] at ha hbm
        subst ha
        subst hbm
        exact absurd rfl hy
      · simp only [Piecewise.tryFrom]
        have hwf : windowsOK ((c1 :: c2 :: rest).mergeSort coordLe) = false := by
          by_contra hwt
          have hwt' : windowsOK ((c1 :: c2 :: rest).mergeSort coordLe) = true :=
            eq_true_of_ne_false hwt
          have hchain := chain'_funcInv_of (sortedByX_mergeSort _) hwt'
          exact hy (sameX_sameY hchain (List.mem_mergeSort.mpr ha)
            (List.mem_mergeSort.mpr hbm) hx)
        rw [if_neg (by simp [hwf])]
  · intro pts hne hfun
    rcases pts with _ | ⟨c1, _ | ⟨c2, rest⟩⟩
    · exact absurd rfl hne
    · exact ⟨⟨[c1]⟩, rfl⟩
    · refine ⟨⟨(c1 :: c2 :: rest).mergeSort coordLe⟩, ?_⟩
      simp only [Piecewise.tryFrom]
      have hw : windowsOK ((c1 :: c2 :: rest).mergeSort coordLe) = true := by
        rw [windowsOK_iff]
        refine List.Pairwise.chain' (List.pairwise_of_forall_mem_list ?_)
        intro a ha b hb
        rintro ⟨hx, hy⟩
        exact hy (hfun b (List.mem_mergeSort.mp hb) a (List.mem_mergeSort.mp ha) hx)
      rw [if_pos hw]
  · rintro ⟨x, y⟩
    constructor
    · intro hex
      cases x with
      | nan => exact Or.inl rfl
      | val a =>
        cases y with
        | nan => exact Or.inr rfl
        | val b =>
          obtain ⟨e, he⟩ := hex
          exact Except.noConfusion he
    · intro hor
      cases x with
      | nan => exact ⟨.mk, rfl⟩
      | val a =>
        cases y with
        | nan => exact ⟨.mk, rfl⟩
        | val b =>
          rcases hor with hcon | hcon
          · exact F64.noConfusion hcon
          · exact F64.noConfusion hcon

theorem error_taxonomy_witness :
    Piecewise.tryFrom ([] : List Coord) = .error .InputEmpty ∧
    Coord.tryFrom (.nan, .val 1) = .error .mk :=
  ⟨(error_taxonomy.1 []).mpr rfl, by
    obtain ⟨e, he⟩ := (error_taxonomy.2.2.2.1 (.nan, .val 1)).mpr (Or.inl rfl)
    cases e
    exact he⟩

/-- C8: serializing a constructed `Piecewise` to its pair sequence and
running construction on that sequence again succeeds and yields the identical
`Piecewise` — the canonical sorted form is a fixed point of construction,
whatever the original input order was. -/
theorem roundtrip_fixed_point (pts : List Coord) (p : Piecewise)
    (h : Piecewise.tryFrom pts = .ok p) :
    Piecewise.tryFrom (coordsOfPairs p.serialize) = .ok p := by
  have hcp : coordsOfPairs p.serialize = p.points := by
    rw [coordsOfPairs, Piecewise.serialize, List.map_map]
    exact List.map_id p.points
  rw [hcp,
    tryFrom_self (tryFrom_ok_ne_nil h) (sortedByX_ok h) (tryFrom_ok_windowsOK h)]

theorem roundtrip_fixed_point_witness :
    Piecewise.tryFrom sidearmPts = .ok sidearm ∧
    Piecewise.tryFrom (coordsOfPairs sidearm.serialize) = .ok sidearm :=
  ⟨sidearm_tryFrom, roundtrip_fixed_point sidearmPts sidearm sidearm_tryFrom⟩

/-- C10: successful construction returns exactly the input points stably
sorted by x: the stored sequence is a permutation of the input (no value
modified, added, removed or deduplicated — coincident duplicates are kept),
it is sorted by x, and points sharing any given x keep their input order
(stability of the sort, which is keyed on x alone). -/
theorem construction_stable_sort (pts : List Coord) (p : Piecewise)
    (h : Piecewise.tryFrom pts = .ok p) :
    p.points.Perm pts ∧ sortedByX p.points ∧
    ∀ q : ℚ, p.points.filter (fun c => c.x == q) =
      pts.filter (fun c => c.x == q) := by
  refine ⟨?_, sortedByX_ok h, ?_⟩
  · rw [tryFrom_ok_points h]
    exact List.mergeSort_perm pts coordLe
  · intro q
    rw [tryFrom_ok_points h]
    have hsub : List.Sublist (pts.filter fun c => c.x == q)
        (pts.mergeSort coordLe) := by
      apply List.sublist_mergeSort coordLe_trans coordLe_total
      · apply List.pairwise_of_forall_mem_list
        intro a ha b hb
        have hax : a.x = q := by simpa using (List.mem_filter.mp ha).2
        have hbx : b.x = q := by simpa using (List.mem_filter.mp hb).2
        simp [coordLe, hax, hbx]
      · exact List.filter_sublist pts
    have hperm : List.Perm ((pts.mergeSort coordLe).filter fun c => c.x == q)
        (pts.filter fun c => c.x == q) :=
      (List.mergeSort_perm pts coordLe).filter _
    have hidem : ((pts.filter fun c => c.x == q).filter fun c => c.x == q) =
        pts.filter fun c => c.x == q :=
      List.filter_eq_self.mpr fun a ha => (List.mem_filter.mp ha).2
    have hsub2 : List.Sublist (pts.filter fun c => c.x == q)
        ((pts.mergeSort coordLe).filter fun c => c.x == q) := by
      have hf := hsub.filter fun c => c.x == q
      rwa [hidem] at hf
    exact (hsub2.eq_of_length hperm.length_eq.symm).symm

theorem construction_stable_sort_witness :
    Piecewise.tryFrom sidearmPts = .ok sidearm ∧ sidearm.points.Perm sidearmPts :=
  ⟨sidearm_tryFrom, (construction_stable_sort sidearmPts sidearm sidearm_tryFrom).1⟩

end LerpTable
